import Mathlib

/-
Verification of `stat-analysis.py`: a pipeline that loads Chrome and Safari
browsing-history timestamps, normalizes them to US/Eastern, filters to
January 2025, aggregates events into per-day hourly activity counts, and
infers a sleep interval per day as the longest contiguous run of
zero-activity hours meeting a minimum-duration threshold.

The embedding below follows the Python source function by function.
Machine time is modelled at microsecond granularity with integers.
-/

namespace StatAnalysis

/-- A timezone-aware datetime, as produced by `pytz`: a naive wall-clock
reading (microseconds since 1970-01-01 00:00:00 on that wall clock) together
with the attached UTC offset in seconds.  The absolute instant it denotes is
`naiveUsec - utcOffsetSeconds * 1e6`. -/
structure AwareDatetime where
  naiveUsec : Int
  utcOffsetSeconds : Int
  deriving DecidableEq, Repr

/-- The absolute instant (epoch microseconds) denoted by an aware datetime. -/
def AwareDatetime.instantUsec (e : AwareDatetime) : Int :=
  e.naiveUsec - e.utcOffsetSeconds * 1000000

/-- The `pytz` US/Eastern standard-time offset (UTC-5), in seconds.  `pytz`'s
`localize` of a naive winter datetime (any wall clock in January, in
particular all of the January-2025 range the pipeline studies) attaches this
offset. -/
def estOffsetSeconds : Int := -18000

/-- Model of `datetime.utcfromtimestamp(time_usec / 1e6)`: a naive datetime whose
wall-clock fields are the UTC reading of the epoch timestamp; its fields
carry exactly the original microseconds. -/
def utcfromtimestampUsec (usec : Int) : Int := usec

/-- Model of `eastern.localize(dt_utc)`: attach the Eastern offset to a naive datetime
without shifting its wall-clock fields. -/
def easternLocalize (naiveUsec : Int) : AwareDatetime :=
  { naiveUsec := naiveUsec, utcOffsetSeconds := estOffsetSeconds }

/-- The per-entry timestamp normalization both loaders perform:
`eastern.localize(datetime.utcfromtimestamp(time_usec / 1e6))`. -/
def normalizeUsec (usec : Int) : AwareDatetime :=
  easternLocalize (utcfromtimestampUsec usec)

/-- A Chrome history entry, keeping only the field the loader reads.
`time_usec = none` models the key being absent from the JSON object. -/
structure ChromeEntry where
  time_usec : Option Int
  deriving DecidableEq, Repr

/-- A Safari history entry, keeping only the field the loader reads.
`destination_time_usec = none` models the key being absent. -/
structure SafariEntry where
  destination_time_usec : Option Int
  deriving DecidableEq, Repr

/-- Embedding of `load_chrome_history`'s per-entry loop: `entry["time_usec"]` raises
`KeyError` when the key is missing, aborting the whole load; otherwise the
entry's normalized timestamp is appended. -/
def load_chrome_history : List ChromeEntry → Except String (List AwareDatetime)
  | [] => .ok []
  | e :: rest =>
    match e.time_usec with
    | none => .error "KeyError: time_usec"
    | some t =>
      match load_chrome_history rest with
      | .error msg => .error msg
      | .ok tail => .ok (normalizeUsec t :: tail)

/-- Embedding of `load_safari_history`'s per-entry loop: `entry.get("destination_time_usec")`
is `None` when missing, and `if not time_usec: continue` skips both a missing
value and a present-but-falsy value (such as `0`). -/
def load_safari_history : List SafariEntry → List AwareDatetime
  | [] => []
  | e :: rest =>
    match e.destination_time_usec with
    | none => load_safari_history rest
    | some t =>
      if t = 0 then load_safari_history rest
      else normalizeUsec t :: load_safari_history rest

/-- The merged DataFrame handed between pipeline stages: the `datetime_est`
column always exists; the `date` and `hour` columns are absent (`none`) until
some stage assigns them. -/
structure HistoryDF where
  datetime_est : List AwareDatetime
  date : Option (List Int)
  hour : Option (List Nat)
  deriving DecidableEq, Repr

/-- Model of `dt.date` of a (wall-clock) datetime, as an epoch-day ordinal. -/
def AwareDatetime.dateOf (e : AwareDatetime) : Int :=
  Int.ediv e.naiveUsec 86400000000

/-- Model of `dt.hour` of a (wall-clock) datetime: the hour-of-day 0..23. -/
def AwareDatetime.hourOf (e : AwareDatetime) : Nat :=
  (Int.ediv (Int.emod e.naiveUsec 86400000000) 3600000000).toNat

/-- Value of `eastern.localize(datetime(2025, 1, 1, 0, 0, 0))`. -/
def start_jan : AwareDatetime := ⟨1735689600000000, estOffsetSeconds⟩

/-- Value of `eastern.localize(datetime(2025, 1, 31, 23, 59, 59))`. -/
def end_jan : AwareDatetime := ⟨1738367999000000, estOffsetSeconds⟩

/-- Embedding of `filter_to_january_2025`: keep rows whose timestamp lies in the inclusive
window; pandas compares aware datetimes by the instants they denote.  The
result is a `.copy()`, so the caller's frame is untouched. -/
def filter_to_january_2025 (df : HistoryDF) : HistoryDF :=
  { df with
    datetime_est := df.datetime_est.filter fun e =>
      decide (start_jan.instantUsec ≤ e.instantUsec) &&
      decide (e.instantUsec ≤ end_jan.instantUsec) }

/-- The size of the `(date, hour)` group: how many rows have the given date
and hour. -/
def countDH (events : List AwareDatetime) (d : Int) (h : Nat) : Nat :=
  (events.filter fun e => decide (e.dateOf = d) && decide (e.hourOf = h)).length

/-- One row of the unstacked/reindexed activity table: the 24 hourly counts
for one date, hours 0..23 in order (`reindex(columns=range(24), fill_value=0)`). -/
def activityFor (events : List AwareDatetime) (d : Int) : List Nat :=
  (List.range 24).map fun h => countDH events d h

/-- Embedding of `aggregate_hourly_activity`: the first component is the state of the
*input* frame after the call (the function assigns `df["date"]` and
`df["hour"]` in place, mutating its argument); the second is the returned
activity table, one `(date, 24 hourly counts)` row per distinct date
appearing in the input. -/
def aggregate_hourly_activity (df : HistoryDF) : HistoryDF × List (Int × List Nat) :=
  let dates := df.datetime_est.map AwareDatetime.dateOf
  let hours := df.datetime_est.map AwareDatetime.hourOf
  ({ df with date := some dates, hour := some hours },
   dates.dedup.map fun d => (d, activityFor df.datetime_est d))

/-- The scan state of `compute_sleep_range`'s inner loop:
`(longest_block, longest_length, current_start, current_length)`. -/
structure ScanState where
  longestBlock : Option (Nat × Nat)
  longestLength : Nat
  currentStart : Option Nat
  currentLength : Nat
  deriving DecidableEq, Repr

/-- The loop's initial state. -/
def initState : ScanState := ⟨none, 0, none, 0⟩

/-- One iteration of `for hour in range(24)` in `compute_sleep_range`, given
the hour index and that hour's activity count `row.get(hour, 0)`. -/
def stepHour (minInactive : Nat) (s : ScanState) (hour : Nat) (count : Nat) : ScanState :=
  if count = 0 then
    match s.currentStart with
    | none => { s with currentStart := some hour, currentLength := 1 }
    | some _ => { s with currentLength := s.currentLength + 1 }
  else
    match s.currentStart with
    | none => s
    | some cs =>
      if minInactive ≤ s.currentLength ∧ s.longestLength < s.currentLength then
        ⟨some (cs, hour - 1), s.currentLength, none, 0⟩
      else
        { s with currentStart := none, currentLength := 0 }

/-- The full 24-hour scan for one activity row. -/
def scanHours (minInactive : Nat) (counts : List Nat) : ScanState :=
  (List.range 24).foldl (fun s h => stepHour minInactive s h (counts.getD h 0)) initState

/-- The post-loop check: a run still open at hour 23 is closed and evaluated
(`longest_block = (current_start, 23)` when it qualifies). -/
def closeFinal (minInactive : Nat) (s : ScanState) : ScanState :=
  match s.currentStart with
  | none => s
  | some cs =>
    if minInactive ≤ s.currentLength ∧ s.longestLength < s.currentLength then
      ⟨some (cs, 23), s.currentLength, s.currentStart, s.currentLength⟩
    else s

/-- Result of `compute_sleep_range` for one date's row:
`some (sleep_start_hour, sleep_end_hour, sleep_duration_hours)` when a block
qualified, `none` for the all-`None` row. -/
def sleepRangeRow (counts : List Nat) (minInactive : Nat) : Option (Nat × Nat × Nat) :=
  let s := closeFinal minInactive (scanHours minInactive counts)
  match s.longestBlock with
  | some (a, b) => some (a, b, s.longestLength)
  | none => none

/-- Embedding of `compute_sleep_range`: one output row per date of the activity table. -/
def compute_sleep_range (activity : List (Int × List Nat))
    (min_inactive_hours : Nat := 5) : List (Int × Option (Nat × Nat × Nat)) :=
  activity.map fun p => (p.1, sleepRangeRow p.2 min_inactive_hours)

/-- The all-zero daily vector. -/
def allZeroDay : List Nat := List.replicate 24 0

/-- A day active everywhere except the single zero run at hours 2..7. -/
def vecSingleRun : List Nat := [1, 1, 0, 0, 0, 0, 0, 0, 1] ++ List.replicate 15 1

/-- A day with two equal five-hour zero runs, hours 1..5 and hours 7..11. -/
def vecTwoRuns : List Nat :=
  [1, 0, 0, 0, 0, 0, 1, 0, 0, 0, 0, 0] ++ List.replicate 12 1

/-- A one-event January-2025 history frame, as produced by the filter
stage. -/
def dfJan : HistoryDF :=
  filter_to_january_2025 ⟨[⟨1735700400000000, estOffsetSeconds⟩], none, none⟩

/-- Safari loading never fabricates events: at most one output per entry. -/
theorem load_safari_history_length_le (l : List SafariEntry) :
    (load_safari_history l).length ≤ l.length := by
  induction l with
  | nil => simp [load_safari_history]
  | cons e rest ih =>
    unfold load_safari_history
    cases e.destination_time_usec with
    | none => exact Nat.le_succ_of_le ih
    | some t =>
      by_cases ht : t = 0
      · simp only [if_pos ht]
        exact Nat.le_succ_of_le ih
      · simp only [if_neg ht, List.length_cons]
        exact Nat.succ_le_succ ih

/-- Chrome loading never fabricates events either: a load that succeeds
yields exactly one event per entry. -/
theorem load_chrome_history_length (l : List ChromeEntry) :
    ∀ out, load_chrome_history l = Except.ok out → out.length = l.length := by
  induction l with
  | nil =>
    intro out h
    injection h with h1
    subst h1
    rfl
  | cons e rest ih =>
    intro out h
    unfold load_chrome_history at h
    cases hce : e.time_usec with
    | none =>
      rw [hce] at h
      exact Except.noConfusion h
    | some t =>
      rw [hce] at h
      cases hrec : load_chrome_history rest with
      | error msg =>
        rw [hrec] at h
        exact Except.noConfusion h
      | ok tail =>
        rw [hrec] at h
        injection h with h1
        subst h1
        have htail := ih tail hrec
        simp only [List.length_cons]
        omega

/-- C4: on the all-zero vector with threshold 5, the trailing open run is
closed at end-of-scan and reported as the full day: start 0, end 23,
duration 24. -/
theorem C4_all_zero_reports_full_day :
    compute_sleep_range [((0 : Int), allZeroDay)] 5 = [(0, some (0, 23, 24))] := rfl

/-- C5 counterexample: the claim says an all-zero vector yields the "none"
row (all three fields null); in fact the code reports the full-day block, so
the result row is not the none row. -/
theorem C5_counterexample :
    compute_sleep_range [((0 : Int), allZeroDay)] 5 ≠ [(0, none)] := by
  intro h
  rw [show compute_sleep_range [((0 : Int), allZeroDay)] 5 = [(0, some (0, 23, 24))] from rfl]
    at h
  simp at h

/-- Every lookup in the all-zero vector yields 0 (in or out of range). -/
theorem getD_allZeroDay (h : Nat) : allZeroDay.getD h 0 = 0 := by
  unfold allZeroDay
  rw [List.getD_eq_getElem?_getD, List.getElem?_replicate]
  rcases lt_or_ge h 24 with hlt | hge
  · rw [if_pos hlt]
    rfl
  · rw [if_neg (by omega)]
    rfl

/-- On an all-zero day the scan never closes a run, so the threshold is never
consulted: the final state is independent of it. -/
theorem scanHours_allZero (m : Nat) : scanHours m allZeroDay = ⟨none, 0, some 0, 24⟩ := by
  have hfun : (fun (s : ScanState) (h : Nat) => stepHour m s h (allZeroDay.getD h 0)) =
      fun (s : ScanState) (h : Nat) => stepHour 0 s h (allZeroDay.getD h 0) := by
    funext s h
    rw [getD_allZeroDay]
    rfl
  unfold scanHours
  rw [hfun]
  rfl

/-- C5 (amended): for the all-zero vector and any threshold at most 24, the
inferrer reports the full-day block `(0, 23, 24)` rather than "none". -/
theorem C5_all_zero_reports_block (d : Int) (m : Nat) (hm : m ≤ 24) :
    compute_sleep_range [(d, allZeroDay)] m = [(d, some (0, 23, 24))] := by
  unfold compute_sleep_range sleepRangeRow
  rw [List.map_cons]
  rw [scanHours_allZero]
  simp [closeFinal, hm]

/-- C5 amended witness at threshold 3. -/
theorem C5_all_zero_witness :
    compute_sleep_range [((0 : Int), allZeroDay)] 3 = [(0, some (0, 23, 24))] :=
  C5_all_zero_reports_block 0 3 (by decide)

/-- C6 counterexample: a Chrome entry whose `time_usec` key is absent is not
skipped; `entry["time_usec"]` raises `KeyError` and the load aborts. -/
theorem C6_counterexample :
    load_chrome_history [{ time_usec := none }] = Except.error "KeyError: time_usec" := rfl

/-- C6 (amended): each loader produces at most one event per entry and never
fabricates events — the Safari loader's output is never longer than its
input, and a successful Chrome load has exactly one event per entry.  The
Safari loader skips an entry missing `destination_time_usec` without error;
the Chrome loader instead raises `KeyError` on an entry missing
`time_usec`. -/
theorem C6_loader_missing_field (e : SafariEntry) (rest : List SafariEntry)
    (ce : ChromeEntry) (crest cl : List ChromeEntry)
    (he : e.destination_time_usec = none) (hce : ce.time_usec = none) :
    load_safari_history (e :: rest) = load_safari_history rest ∧
    (load_safari_history (e :: rest)).length ≤ (e :: rest).length ∧
    load_chrome_history (ce :: crest) = Except.error "KeyError: time_usec" ∧
    (∀ out, load_chrome_history cl = Except.ok out → out.length ≤ cl.length) := by
  refine ⟨?_, load_safari_history_length_le _, ?_, ?_⟩
  · cases e with
    | mk te => cases he; rfl
  · cases ce with
    | mk tce => cases hce; rfl
  · intro out hok
    exact Nat.le_of_eq (load_chrome_history_length cl out hok)

/-- C6 amended witness on concrete one-entry histories. -/
theorem C6_loader_missing_field_witness :
    load_safari_history ({ destination_time_usec := none } :: [⟨some 1000000⟩]) =
      load_safari_history [⟨some 1000000⟩] ∧
    (load_safari_history ({ destination_time_usec := none } :: [⟨some 1000000⟩])).length ≤
      ({ destination_time_usec := none } :: [(⟨some 1000000⟩ : SafariEntry)]).length ∧
    load_chrome_history ({ time_usec := none } :: []) = Except.error "KeyError: time_usec" ∧
    (∀ out, load_chrome_history [({ time_usec := some 1000000 } : ChromeEntry)] =
      Except.ok out → out.length ≤ [({ time_usec := some 1000000 } : ChromeEntry)].length) :=
  C6_loader_missing_field ⟨none⟩ [⟨some 1000000⟩] ⟨none⟩ [] [⟨some 1000000⟩] rfl rfl

/-- C7: the normalization `eastern.localize(datetime.utcfromtimestamp(t/1e6))`
re-labels the UTC wall clock as Eastern instead of converting it, so the
aware datetime produced for epoch instant 0 denotes epoch instant
+18000 seconds (1970-01-01 00:00:00-05:00), not the source instant. -/
theorem C7_localize_shifts_instant :
    (normalizeUsec 0).instantUsec = 18000000000 ∧ (normalizeUsec 0).instantUsec ≠ 0 := by
  decide

/-- C9 counterexample: after `aggregate_hourly_activity` runs, the
filter-stage DataFrame is no longer equal to what it was before the call
(the function assigned `date` and `hour` columns into it). -/
theorem C9_counterexample : (aggregate_hourly_activity dfJan).1 ≠ dfJan := by
  decide

/-- C9 (amended): `aggregate_hourly_activity` mutates the filter stage's
frame only by assigning the derived `date` and `hour` columns; the
pre-existing `datetime_est` column is unchanged. -/
theorem C9_aggregate_only_adds_columns (df : HistoryDF) :
    (aggregate_hourly_activity df).1.datetime_est = df.datetime_est ∧
    (aggregate_hourly_activity df).1.date =
      some (df.datetime_est.map AwareDatetime.dateOf) ∧
    (aggregate_hourly_activity df).1.hour =
      some (df.datetime_est.map AwareDatetime.hourOf) :=
  ⟨rfl, rfl, rfl⟩

/-- C10: the Safari loader's falsy test drops an entry whose
`destination_time_usec` is present but `0` exactly as it drops an entry
missing the field. -/
theorem C10_safari_drops_falsy_timestamp (rest : List SafariEntry) :
    load_safari_history ({ destination_time_usec := some 0 } :: rest) =
      load_safari_history rest ∧
    load_safari_history ({ destination_time_usec := none } :: rest) =
      load_safari_history rest :=
  ⟨rfl, rfl⟩

/-- Deduplicating a nonempty constant list yields the singleton. -/
theorem dedup_of_const (d : Int) :
    ∀ l : List Int, l ≠ [] → (∀ x ∈ l, x = d) → l.dedup = [d] := by
  intro l
  induction l with
  | nil => intro h; exact absurd rfl h
  | cons x rest ih =>
    intro _ hall
    have hx : x = d := hall x (List.mem_cons_self x rest)
    subst hx
    cases rest with
    | nil => rfl
    | cons y rest2 =>
      have hy : y = x := (hall y (by simp)).trans (hall x (by simp)).symm
      rw [List.dedup_cons_of_mem (by rw [hy]; exact List.mem_cons_self x rest2)]
      exact ih (by simp) fun z hz => hall z (List.mem_cons_of_mem _ hz)

/-- Reading column `h` (for `h < 24`) of an activity row gives the group
count for that hour. -/
theorem activityFor_getD (events : List AwareDatetime) (d : Int) (h : Nat)
    (hh : h < 24) : (activityFor events d).getD h 0 = countDH events d h := by
  unfold activityFor
  rw [List.getD_eq_getElem?_getD, List.getElem?_map, List.getElem?_range hh]
  rfl

/-- C8: aggregating a nonempty batch of events that all fall in hour 3 of a
single date produces exactly one activity row, with all 24 hour columns
present, `counts[3]` equal to the batch size and every other hour 0. -/
theorem C8_single_hour_round_trip (events : List AwareDatetime) (d : Int) (N : Nat)
    (hne : events ≠ []) (hN : events.length = N)
    (hall : ∀ e ∈ events, e.dateOf = d ∧ e.hourOf = 3) :
    ∃ row, (aggregate_hourly_activity ⟨events, none, none⟩).2 = [(d, row)] ∧
      row.length = 24 ∧ row.getD 3 0 = N ∧
      ∀ h, h < 24 → h ≠ 3 → row.getD h 0 = 0 := by
  refine ⟨activityFor events d, ?_, ?_, ?_, ?_⟩
  · show (events.map AwareDatetime.dateOf).dedup.map _ = _
    rw [dedup_of_const d _ (by simpa using hne) ?hconst]
    · rfl
    case hconst =>
      intro x hx
      obtain ⟨e, he, rfl⟩ := List.mem_map.1 hx
      exact (hall e he).1
  · unfold activityFor
    rw [List.length_map, List.length_range]
  · rw [activityFor_getD events d 3 (by omega)]
    unfold countDH
    rw [List.filter_eq_self.mpr ?hkeep]
    · exact hN
    case hkeep =>
      intro e he
      obtain ⟨hd, hh⟩ := hall e he
      simp [hd, hh]
  · intro h hh hne3
    rw [activityFor_getD events d h hh]
    unfold countDH
    rw [List.filter_eq_nil_iff.mpr ?hdrop]
    · rfl
    case hdrop =>
      intro e he
      obtain ⟨hd, hh3⟩ := hall e he
      simp [hd, hh3, Ne.symm hne3]

/-- C8 witness: two events at 03:00 on the epoch date. -/
theorem C8_single_hour_round_trip_witness :
    ∃ row,
      (aggregate_hourly_activity
        ⟨[⟨10800000000, -18000⟩, ⟨10800000000, -18000⟩], none, none⟩).2 =
        [((0 : Int), row)] ∧
      row.length = 24 ∧ row.getD 3 0 = 2 ∧
      ∀ h, h < 24 → h ≠ 3 → row.getD h 0 = 0 :=
  C8_single_hour_round_trip [⟨10800000000, -18000⟩, ⟨10800000000, -18000⟩] 0 2
    (by simp) rfl (by decide)

/-- Loop invariant for the open run after processing hours `0..h-1`: when a
run is open it starts at a zero hour preceded by activity (or hour 0), spans
zero hours up to `h-1`, and `currentLength` measures it; when no run is open
the previous hour (if any) was active. -/
def OpenInv (counts : List Nat) (h : Nat) (s : ScanState) : Prop :=
  (s.currentStart = none →
    s.currentLength = 0 ∧ (h = 0 ∨ counts.getD (h - 1) 0 ≠ 0)) ∧
  (∀ cs, s.currentStart = some cs →
    cs < h ∧ s.currentLength = h - cs ∧
    (∀ i, cs ≤ i → i < h → counts.getD i 0 = 0) ∧
    (cs = 0 ∨ counts.getD (cs - 1) 0 ≠ 0))

/-- Loop invariant for the best block after processing hours `0..h-1`: a
recorded block is a qualifying zero run closed by an active hour inside the
processed prefix, and `longestLength` is its width. -/
def BestInv (m : Nat) (counts : List Nat) (h : Nat) (s : ScanState) : Prop :=
  (s.longestBlock = none → s.longestLength = 0) ∧
  (∀ a b, s.longestBlock = some (a, b) →
    a ≤ b ∧ b + 1 < h ∧
    (∀ i, a ≤ i → i ≤ b → counts.getD i 0 = 0) ∧
    s.longestLength = b + 1 - a ∧ m ≤ s.longestLength ∧
    counts.getD (b + 1) 0 ≠ 0)

/-- What the scan guarantees about a zero range lying in already-closed
territory: it is below the threshold, or bounded by the recorded block's
length — strictly, unless it starts no earlier than the recorded block. -/
def ClosedBound (m : Nat) (s : ScanState) (u v : Nat) : Prop :=
  v + 1 - u < m ∨
  ∃ a b, s.longestBlock = some (a, b) ∧
    (v + 1 - u < s.longestLength ∨ (v + 1 - u = s.longestLength ∧ a ≤ u))

/-- Loop invariant bounding every zero range of the processed prefix: it lies
inside the open run, or it satisfies `ClosedBound`. -/
def RangeInv (m : Nat) (counts : List Nat) (h : Nat) (s : ScanState) : Prop :=
  ∀ u v, u ≤ v → v < h → (∀ i, u ≤ i → i ≤ v → counts.getD i 0 = 0) →
    (∃ cs, s.currentStart = some cs ∧ cs ≤ u) ∨ ClosedBound m s u v

/-- The full loop invariant of `compute_sleep_range`'s scan. -/
def ScanInv (m : Nat) (counts : List Nat) (h : Nat) (s : ScanState) : Prop :=
  OpenInv counts h s ∧ BestInv m counts h s ∧ RangeInv m counts h s

/-- The invariant holds before the first hour. -/
theorem scanInv_init (m : Nat) (counts : List Nat) : ScanInv m counts 0 initState := by
  refine ⟨⟨fun _ => ⟨rfl, Or.inl rfl⟩, ?_⟩, ⟨fun _ => rfl, ?_⟩, ?_⟩
  · intro cs hcs
    exact absurd hcs (by simp [initState])
  · intro a b hab
    exact absurd hab (by simp [initState])
  · intro u v _ hv _
    omega

/-- Step preservation, zero count with no open run: a run opens at `h`. -/
theorem scanInv_openNew (m : Nat) (counts : List Nat) (h : Nat) (s : ScanState)
    (inv : ScanInv m counts h s) (hc : counts.getD h 0 = 0)
    (hcs : s.currentStart = none) :
    ScanInv m counts (h + 1) ⟨s.longestBlock, s.longestLength, some h, 1⟩ := by
  dsimp only [ScanInv, OpenInv, BestInv, RangeInv, ClosedBound]
  obtain ⟨⟨openNone, _⟩, ⟨bestNone, bestSome⟩, rangeInv⟩ := inv
  obtain ⟨-, hbound⟩ := openNone hcs
  refine ⟨⟨?_, ?_⟩, ⟨bestNone, ?_⟩, ?_⟩
  · intro hnone
    exact Option.noConfusion hnone
  · intro cs hsome
    injection hsome with heq
    subst heq
    refine ⟨by omega, by omega, ?_, hbound⟩
    intro i hi1 hi2
    have hih : i = h := by omega
    rw [hih]
    exact hc
  · intro a b hab
    obtain ⟨h1, h2, h3, h4, h5, h6⟩ := bestSome a b hab
    exact ⟨h1, by omega, h3, h4, h5, h6⟩
  · intro u v huv hv hz
    rcases Nat.lt_or_ge v h with hvh | hvh
    · rcases rangeInv u v huv hvh hz with ⟨cs0, hcs0, -⟩ | hcb
      · rw [hcs] at hcs0
        exact Option.noConfusion hcs0
      · exact Or.inr hcb
    · have hveq : v = h := by omega
      rcases Nat.lt_or_ge u v with huv' | huv'
      · rcases hbound with h0 | hb
        · omega
        · exact absurd (hz (h - 1) (by omega) (by omega)) hb
      · exact Or.inl ⟨h, rfl, by omega⟩

/-- Step preservation, zero count with an open run: the run extends to `h`. -/
theorem scanInv_extend (m : Nat) (counts : List Nat) (h : Nat) (s : ScanState)
    (inv : ScanInv m counts h s) (hc : counts.getD h 0 = 0)
    (cs : Nat) (hcs : s.currentStart = some cs) :
    ScanInv m counts (h + 1)
      ⟨s.longestBlock, s.longestLength, some cs, s.currentLength + 1⟩ := by
  dsimp only [ScanInv, OpenInv, BestInv, RangeInv, ClosedBound]
  obtain ⟨⟨_, openSome⟩, ⟨bestNone, bestSome⟩, rangeInv⟩ := inv
  obtain ⟨hcslt, hlen, hzrun, hbound⟩ := openSome cs hcs
  refine ⟨⟨?_, ?_⟩, ⟨bestNone, ?_⟩, ?_⟩
  · intro hnone
    exact Option.noConfusion hnone
  · intro cs2 hsome
    injection hsome with heq
    subst heq
    refine ⟨by omega, by omega, ?_, hbound⟩
    intro i hi1 hi2
    rcases Nat.lt_or_ge i h with hih | hih
    · exact hzrun i hi1 hih
    · have : i = h := by omega
      rw [this]
      exact hc
  · intro a b hab
    obtain ⟨h1, h2, h3, h4, h5, h6⟩ := bestSome a b hab
    exact ⟨h1, by omega, h3, h4, h5, h6⟩
  · intro u v huv hv hz
    rcases Nat.lt_or_ge u cs with hucs | hucs
    · rcases hbound with h0 | hb
      · omega
      · rcases Nat.lt_or_ge v (cs - 1) with hvcs | hvcs
        · rcases rangeInv u v huv (by omega) hz with ⟨cs0, hcs0, hle⟩ | hcb
          · rw [hcs] at hcs0
            injection hcs0 with he
            omega
          · exact Or.inr hcb
        · exact absurd (hz (cs - 1) (by omega) (by omega)) hb
    · exact Or.inl ⟨cs, rfl, hucs⟩

/-- Step preservation, nonzero count with no open run: nothing changes. -/
theorem scanInv_stay (m : Nat) (counts : List Nat) (h : Nat) (s : ScanState)
    (inv : ScanInv m counts h s) (hc : counts.getD h 0 ≠ 0)
    (hcs : s.currentStart = none) :
    ScanInv m counts (h + 1) s := by
  dsimp only [ScanInv, OpenInv, BestInv, RangeInv, ClosedBound]
  obtain ⟨⟨openNone, openSome⟩, ⟨bestNone, bestSome⟩, rangeInv⟩ := inv
  refine ⟨⟨?_, ?_⟩, ⟨bestNone, ?_⟩, ?_⟩
  · intro hnone
    exact ⟨(openNone hcs).1, Or.inr (by simpa using hc)⟩
  · intro cs hsome
    rw [hcs] at hsome
    exact Option.noConfusion hsome
  · intro a b hab
    obtain ⟨h1, h2, h3, h4, h5, h6⟩ := bestSome a b hab
    exact ⟨h1, by omega, h3, h4, h5, h6⟩
  · intro u v huv hv hz
    rcases Nat.lt_or_ge v h with hvh | hvh
    · exact rangeInv u v huv hvh hz
    · have hveq : v = h := by omega
      exact absurd (hz h (by omega) (by omega)) hc

/-- Step preservation, nonzero count closing a qualifying run: the run is
recorded as the new best block. -/
theorem scanInv_record (m : Nat) (counts : List Nat) (h : Nat) (s : ScanState)
    (inv : ScanInv m counts h s) (hc : counts.getD h 0 ≠ 0)
    (cs : Nat) (hcs : s.currentStart = some cs)
    (hq : m ≤ s.currentLength ∧ s.longestLength < s.currentLength) :
    ScanInv m counts (h + 1) ⟨some (cs, h - 1), s.currentLength, none, 0⟩ := by
  dsimp only [ScanInv, OpenInv, BestInv, RangeInv, ClosedBound]
  obtain ⟨⟨_, openSome⟩, ⟨bestNone, bestSome⟩, rangeInv⟩ := inv
  obtain ⟨hcslt, hlen, hzrun, hbound⟩ := openSome cs hcs
  obtain ⟨hqm, hqLL⟩ := hq
  refine ⟨⟨?_, ?_⟩, ⟨?_, ?_⟩, ?_⟩
  · intro _
    exact ⟨rfl, Or.inr (by simpa using hc)⟩
  · intro cs2 hsome
    exact Option.noConfusion hsome
  · intro hnone
    exact Option.noConfusion hnone
  · intro a b hab
    injection hab with habe
    injection habe with ha hb
    subst ha
    subst hb
    refine ⟨by omega, by omega, ?_, by omega, hqm, ?_⟩
    · intro i hi1 hi2
      exact hzrun i hi1 (by omega)
    · rw [Nat.sub_add_cancel (by omega : 1 ≤ h)]
      exact hc
  · intro u v huv hv hz
    rcases Nat.lt_or_ge v h with hvh | hvh
    · rcases rangeInv u v huv hvh hz with ⟨cs0, hcs0, hle⟩ | hcb
      · rw [hcs] at hcs0
        injection hcs0 with he
        subst he
        refine Or.inr (Or.inr ⟨cs, h - 1, rfl, ?_⟩)
        omega
      · rcases hcb with hsmall | ⟨a0, b0, hb0, hdisj⟩
        · exact Or.inr (Or.inl hsmall)
        · obtain ⟨-, -, -, hLL, -, -⟩ := bestSome a0 b0 hb0
          refine Or.inr (Or.inr ⟨cs, h - 1, rfl, Or.inl ?_⟩)
          omega
    · have hveq : v = h := by omega
      exact absurd (hz h (by omega) (by omega)) hc

/-- Step preservation, nonzero count closing a non-qualifying run: the run is
discarded. -/
theorem scanInv_discard (m : Nat) (counts : List Nat) (h : Nat) (s : ScanState)
    (inv : ScanInv m counts h s) (hc : counts.getD h 0 ≠ 0)
    (cs : Nat) (hcs : s.currentStart = some cs)
    (hq : ¬(m ≤ s.currentLength ∧ s.longestLength < s.currentLength)) :
    ScanInv m counts (h + 1) ⟨s.longestBlock, s.longestLength, none, 0⟩ := by
  dsimp only [ScanInv, OpenInv, BestInv, RangeInv, ClosedBound]
  obtain ⟨⟨_, openSome⟩, ⟨bestNone, bestSome⟩, rangeInv⟩ := inv
  obtain ⟨hcslt, hlen, hzrun, hbound⟩ := openSome cs hcs
  refine ⟨⟨?_, ?_⟩, ⟨bestNone, ?_⟩, ?_⟩
  · intro _
    exact ⟨rfl, Or.inr (by simpa using hc)⟩
  · intro cs2 hsome
    exact Option.noConfusion hsome
  · intro a b hab
    obtain ⟨h1, h2, h3, h4, h5, h6⟩ := bestSome a b hab
    exact ⟨h1, by omega, h3, h4, h5, h6⟩
  · intro u v huv hv hz
    rcases Nat.lt_or_ge v h with hvh | hvh
    · rcases rangeInv u v huv hvh hz with ⟨cs0, hcs0, hle⟩ | hcb
      · rw [hcs] at hcs0
        injection hcs0 with he
        subst he
        rcases Nat.lt_or_ge (v + 1 - u) m with hsm | hbig
        · exact Or.inr (Or.inl hsm)
        · have hLle : s.currentLength ≤ s.longestLength := by omega
          cases hb : s.longestBlock with
          | none =>
            have := bestNone hb
            omega
          | some ab =>
            obtain ⟨a0, b0⟩ := ab
            obtain ⟨hab0, hb0h, hz0, hLL, hmLL, hcb1⟩ := bestSome a0 b0 hb
            rcases Nat.lt_or_ge (v + 1 - u) s.longestLength with hlt | hge
            · exact Or.inr (Or.inr ⟨a0, b0, rfl, Or.inl hlt⟩)
            · have heq : v + 1 - u = s.longestLength := by omega
              have hucs : u = cs := by omega
              have hb0cs : b0 + 1 < cs := by
                by_contra hcon
                push_neg at hcon
                exact hcb1 (hzrun (b0 + 1) (by omega) (by omega))
              exact Or.inr (Or.inr ⟨a0, b0, rfl, Or.inr ⟨heq, by omega⟩⟩)
      · exact Or.inr hcb
    · have hveq : v = h := by omega
      exact absurd (hz h (by omega) (by omega)) hc

/-- One loop iteration preserves the scan invariant. -/
theorem scanInv_step (m : Nat) (counts : List Nat) (h : Nat) (s : ScanState)
    (inv : ScanInv m counts h s) :
    ScanInv m counts (h + 1) (stepHour m s h (counts.getD h 0)) := by
  by_cases hc : counts.getD h 0 = 0
  · cases hcs : s.currentStart with
    | none =>
      have hstep : stepHour m s h (counts.getD h 0) =
          ⟨s.longestBlock, s.longestLength, some h, 1⟩ := by
        unfold stepHour
        rw [if_pos hc, hcs]
      rw [hstep]
      exact scanInv_openNew m counts h s inv hc hcs
    | some cs =>
      have hstep : stepHour m s h (counts.getD h 0) =
          ⟨s.longestBlock, s.longestLength, some cs, s.currentLength + 1⟩ := by
        unfold stepHour
        rw [if_pos hc, hcs]
      rw [hstep]
      exact scanInv_extend m counts h s inv hc cs hcs
  · cases hcs : s.currentStart with
    | none =>
      have hstep : stepHour m s h (counts.getD h 0) = s := by
        unfold stepHour
        rw [if_neg hc, hcs]
      rw [hstep]
      exact scanInv_stay m counts h s inv hc hcs
    | some cs =>
      by_cases hq : m ≤ s.currentLength ∧ s.longestLength < s.currentLength
      · have hstep : stepHour m s h (counts.getD h 0) =
            ⟨some (cs, h - 1), s.currentLength, none, 0⟩ := by
          unfold stepHour
          rw [if_neg hc, hcs]
          exact if_pos hq
        rw [hstep]
        exact scanInv_record m counts h s inv hc cs hcs hq
      · have hstep : stepHour m s h (counts.getD h 0) =
            ⟨s.longestBlock, s.longestLength, none, 0⟩ := by
          unfold stepHour
          rw [if_neg hc, hcs]
          exact if_neg hq
        rw [hstep]
        exact scanInv_discard m counts h s inv hc cs hcs hq

/-- The invariant is preserved along any contiguous block of iterations. -/
theorem scanInv_foldl (m : Nat) (counts : List Nat) :
    ∀ (n h : Nat) (s : ScanState), ScanInv m counts h s →
      ScanInv m counts (h + n)
        ((List.range' h n).foldl (fun s i => stepHour m s i (counts.getD i 0)) s) := by
  intro n
  induction n with
  | zero =>
    intro h s inv
    simpa using inv
  | succ k ih =>
    intro h s inv
    rw [List.range'_succ]
    rw [List.foldl_cons]
    have hres := ih (h + 1) (stepHour m s h (counts.getD h 0)) (scanInv_step m counts h s inv)
    rw [show h + (k + 1) = h + 1 + k by omega]
    exact hres

/-- The invariant holds after the full 24-hour scan. -/
theorem scanInv_scanHours (m : Nat) (counts : List Nat) :
    ScanInv m counts 24 (scanHours m counts) := by
  have h := scanInv_foldl m counts 24 0 initState (scanInv_init m counts)
  unfold scanHours
  rw [List.range_eq_range']
  simpa using h

/-- Soundness and maximality of a reported per-row result: the block is a
zero run of the reported width, at least the threshold wide, and no zero
range in hours 0..23 is wider — nor as wide while starting earlier. -/
theorem sleepRangeRow_spec (counts : List Nat) (m a b L : Nat)
    (hr : sleepRangeRow counts m = some (a, b, L)) :
    (a ≤ b ∧ b ≤ 23 ∧ (∀ i, a ≤ i → i ≤ b → counts.getD i 0 = 0) ∧
      L = b + 1 - a ∧ m ≤ L) ∧
    (∀ u v, u ≤ v → v ≤ 23 → (∀ i, u ≤ i → i ≤ v → counts.getD i 0 = 0) →
      v + 1 - u ≤ L ∧ (v + 1 - u = L → a ≤ u)) := by
  have hinv := scanInv_scanHours m counts
  simp only [sleepRangeRow] at hr
  revert hinv hr
  generalize scanHours m counts = sc
  intro hr hinv
  obtain ⟨⟨openNone, openSome⟩, ⟨bestNone, bestSome⟩, rangeInv⟩ := hinv
  have hmain : (closeFinal m sc).longestBlock = some (a, b) ∧
      (closeFinal m sc).longestLength = L := by
    split at hr
    next a0 b0 heq =>
      injection hr with h1
      injection h1 with ha h2
      injection h2 with hb' hL
      subst ha
      subst hb'
      exact ⟨heq, hL⟩
    next heq => exact Option.noConfusion hr
  obtain ⟨hb, hL⟩ := hmain
  cases hcs : sc.currentStart with
  | none =>
    have hcf : closeFinal m sc = sc := by
      unfold closeFinal
      rw [hcs]
    rw [hcf] at hb hL
    obtain ⟨hab, hbh, hzb, hLL, hmLL, hcb1⟩ := bestSome a b hb
    refine ⟨⟨hab, by omega, hzb, by omega, by omega⟩, ?_⟩
    intro u v huv hv24 hzuv
    rcases rangeInv u v huv (by omega) hzuv with ⟨cs0, hcs0, -⟩ | hcb
    · rw [hcs] at hcs0
      exact Option.noConfusion hcs0
    · rcases hcb with hsmall | ⟨a1, b1, hb1, hdisj⟩
      · exact ⟨by omega, by omega⟩
      · rw [hb] at hb1
        injection hb1 with h1
        injection h1 with ha1 hb1'
        subst ha1
        subst hb1'
        exact ⟨by omega, by omega⟩
  | some cs =>
    obtain ⟨hcslt, hlen, hzrun, -⟩ := openSome cs hcs
    by_cases hq : m ≤ sc.currentLength ∧ sc.longestLength < sc.currentLength
    · have hcf : closeFinal m sc =
          ⟨some (cs, 23), sc.currentLength, sc.currentStart, sc.currentLength⟩ := by
        unfold closeFinal
        rw [hcs]
        exact if_pos hq
      rw [hcf] at hb hL
      have hab : (cs, 23) = (a, b) := by
        injection hb with h1
      injection hab with ha hb23
      subst ha
      subst hb23
      have hLcur : sc.currentLength = L := hL
      refine ⟨⟨by omega, by omega, ?_, by omega, by omega⟩, ?_⟩
      · intro i hi1 hi2
        exact hzrun i hi1 (by omega)
      · intro u v huv hv24 hzuv
        rcases rangeInv u v huv (by omega) hzuv with ⟨cs0, hcs0, hle⟩ | hcb
        · rw [hcs] at hcs0
          injection hcs0 with he
          subst he
          exact ⟨by omega, by omega⟩
        · rcases hcb with hsmall | ⟨a1, b1, hb1, hdisj⟩
          · exact ⟨by omega, by omega⟩
          · obtain ⟨-, -, -, hLL1, -, -⟩ := bestSome a1 b1 hb1
            exact ⟨by omega, by omega⟩
    · have hcf : closeFinal m sc = sc := by
        unfold closeFinal
        rw [hcs]
        exact if_neg hq
      rw [hcf] at hb hL
      obtain ⟨hab, hbh, hzb, hLL, hmLL, hcb1⟩ := bestSome a b hb
      have hbcs : b + 1 < cs := by
        by_contra hcon
        push_neg at hcon
        exact hcb1 (hzrun (b + 1) (by omega) (by omega))
      refine ⟨⟨hab, by omega, hzb, by omega, by omega⟩, ?_⟩
      intro u v huv hv24 hzuv
      rcases rangeInv u v huv (by omega) hzuv with ⟨cs0, hcs0, hle⟩ | hcb
      · rw [hcs] at hcs0
        injection hcs0 with he
        subst he
        exact ⟨by omega, by omega⟩
      · rcases hcb with hsmall | ⟨a1, b1, hb1, hdisj⟩
        · exact ⟨by omega, by omega⟩
        · rw [hb] at hb1
          injection hb1 with h1
          injection h1 with ha1 hb1'
          subst ha1
          subst hb1'
          exact ⟨by omega, by omega⟩

/-- A single-row activity table's result row determines the per-row result. -/
theorem compute_sleep_range_singleton (d : Int) (counts : List Nat) (m : Nat)
    (r : Option (Nat × Nat × Nat))
    (h : compute_sleep_range [(d, counts)] m = [(d, r)]) :
    sleepRangeRow counts m = r := by
  simp only [compute_sleep_range, List.map_cons, List.map_nil] at h
  injection h with h1 h2
  injection h1 with hd hrow

/-- C1: when `compute_sleep_range` reports a block for a day, every hour in
`[sleep_start_hour, sleep_end_hour]` has zero count, and
`sleep_duration_hours` equals `sleep_end_hour - sleep_start_hour + 1` and is
at least the threshold. -/
theorem C1_reported_block_sound (counts : List Nat) (d : Int) (m a b L : Nat)
    (_hlen : counts.length = 24)
    (h : compute_sleep_range [(d, counts)] m = [(d, some (a, b, L))]) :
    a ≤ b ∧ (∀ i, a ≤ i → i ≤ b → counts.getD i 0 = 0) ∧
      L = b - a + 1 ∧ m ≤ L := by
  have hrow := compute_sleep_range_singleton d counts m _ h
  obtain ⟨⟨hab, hb23, hz, hL, hm⟩, -⟩ := sleepRangeRow_spec counts m a b L hrow
  exact ⟨hab, hz, by omega, hm⟩

/-- C1 witness: activity everywhere except hours 2..7 at threshold 5 reports
the block (2, 7, 6), which is all-zero, 6 = 7 - 2 + 1 wide and above the
threshold. -/
theorem C1_reported_block_sound_witness :
    2 ≤ 7 ∧ (∀ i, 2 ≤ i → i ≤ 7 → vecSingleRun.getD i 0 = 0) ∧
      6 = 7 - 2 + 1 ∧ 5 ≤ 6 :=
  C1_reported_block_sound vecSingleRun 0 5 2 7 6 rfl rfl

/-- C2: when a block is reported, no zero range among hours 0..23 is
strictly longer than the reported duration. -/
theorem C2_no_longer_zero_run (counts : List Nat) (d : Int) (m a b L u v : Nat)
    (_hlen : counts.length = 24)
    (h : compute_sleep_range [(d, counts)] m = [(d, some (a, b, L))])
    (huv : u ≤ v) (hv : v ≤ 23)
    (hz : ∀ i, u ≤ i → i ≤ v → counts.getD i 0 = 0) :
    v - u + 1 ≤ L := by
  have hrow := compute_sleep_range_singleton d counts m _ h
  obtain ⟨-, hmax⟩ := sleepRangeRow_spec counts m a b L hrow
  have hle := (hmax u v huv hv hz).1
  omega

/-- C2 witness: the zero range 3..6 inside the single-run day is no longer
than the reported duration 6. -/
theorem C2_no_longer_zero_run_witness : 6 - 3 + 1 ≤ 6 :=
  C2_no_longer_zero_run vecSingleRun 0 5 2 7 6 3 6 rfl rfl (by decide) (by decide)
    (by
      intro i h1 h2
      interval_cases i <;> rfl)

/-- C3: when a block is reported, any equally long zero range starts no
earlier — with two or more equal maximal qualifying runs, the reported one
is the earliest in scan order. -/
theorem C3_tie_reports_earliest (counts : List Nat) (d : Int) (m a b L u v : Nat)
    (_hlen : counts.length = 24)
    (h : compute_sleep_range [(d, counts)] m = [(d, some (a, b, L))])
    (huv : u ≤ v) (hv : v ≤ 23)
    (hz : ∀ i, u ≤ i → i ≤ v → counts.getD i 0 = 0)
    (hLuv : v - u + 1 = L) :
    a ≤ u := by
  have hrow := compute_sleep_range_singleton d counts m _ h
  obtain ⟨-, hmax⟩ := sleepRangeRow_spec counts m a b L hrow
  exact (hmax u v huv hv hz).2 (by omega)

/-- C3 witness: with equal five-hour runs at 1..5 and 7..11, the reported
start 1 is at most the second run's start 7. -/
theorem C3_tie_reports_earliest_witness : 1 ≤ 7 :=
  C3_tie_reports_earliest vecTwoRuns 0 5 1 5 5 7 11 rfl rfl (by decide) (by decide)
    (by
      intro i h1 h2
      interval_cases i <;> rfl)
    (by decide)

end StatAnalysis
